import Mathlib

/-!
Verification of the svt terminal image viewer core against its specification.

The Rust sources are shallowly embedded: `u16`/`u32`/`u64` values are
modelled as `Nat` with explicit `% 2^w` at the points where the source
casts or wraps; fallible operations return `Option`; the imperative
state of the orchestrator (`App`), the LRU render cache and the terminal
writer are modelled as records with explicit state-passing functions.
Byte blocks written to the terminal are modelled as `String`s.
-/

namespace Svt

/-! ## Basic data: fit mode and cell rectangles (ratatui `Rect`, u16 fields) -/

inductive FitMode where
  | Normal : FitMode
  | Fit : FitMode
deriving DecidableEq, Repr

inductive ViewMode where
  | Single : ViewMode
  | Tile : ViewMode
deriving DecidableEq, Repr

/-- A terminal cell rectangle. Fields are `u16` in the source; we carry `Nat`
and apply the `as u16` truncation (`% 65536`) exactly where the source casts. -/
structure Rect where
  x : Nat
  y : Nat
  width : Nat
  height : Nat
deriving DecidableEq, Repr

/-- The `as u16` cast of Rust. -/
def u16 (n : Nat) : Nat := n % 65536

/-- The rectangle `r` is a genuine u16 rectangle (all fields fit in 16 bits). -/
def U16Rect (r : Rect) : Prop :=
  r.x < 65536 ∧ r.y < 65536 ∧ r.width < 65536 ∧ r.height < 65536

instance (r : Rect) : Decidable (U16Rect r) := by
  unfold U16Rect; infer_instance

/-- Cell `(px, py)` lies inside rectangle `r`. -/
def memRect (r : Rect) (px py : Nat) : Prop :=
  r.x ≤ px ∧ px < r.x + r.width ∧ r.y ≤ py ∧ py < r.y + r.height

instance (r : Rect) (px py : Nat) : Decidable (memRect r px py) := by
  unfold memRect; infer_instance

/-- Area of a rectangle in cells. -/
def rectArea (r : Rect) : Nat := r.width * r.height

/-- Model of `rect_intersection` from sender.rs: `None` on zero overlap, including
edge-touching; coordinates are compared in u32 and cast back with `as u16`. -/
def rectIntersection (a b : Rect) : Option Rect :=
  let ax1 := a.x + a.width
  let ay1 := a.y + a.height
  let bx1 := b.x + b.width
  let by1 := b.y + b.height
  let x0 := max a.x b.x
  let y0 := max a.y b.y
  let x1 := min ax1 bx1
  let y1 := min ay1 by1
  if x1 ≤ x0 ∨ y1 ≤ y0 then
    none
  else
    some ⟨u16 x0, u16 y0, u16 (x1 - x0), u16 (y1 - y0)⟩

/-- Model of `rect_diff` from sender.rs: the strips of `old` not covered by `new`
(top, bottom, left-mid, right-mid), or `[old]` when there is no overlap. -/
def rectDiff (old new : Rect) : List Rect :=
  match rectIntersection old new with
  | none => [old]
  | some inter =>
    let oldX0 := old.x
    let oldY0 := old.y
    let oldX1 := old.x + old.width
    let oldY1 := old.y + old.height
    let interX0 := inter.x
    let interY0 := inter.y
    let interX1 := inter.x + inter.width
    let interY1 := inter.y + inter.height
    (if oldY0 < interY0 then
        [Rect.mk old.x old.y old.width (u16 (interY0 - oldY0))]
      else []) ++
    (if interY1 < oldY1 then
        [Rect.mk old.x (u16 interY1) old.width (u16 (oldY1 - interY1))]
      else []) ++
    (if oldX0 < interX0 then
        [Rect.mk old.x inter.y (u16 (interX0 - oldX0)) inter.height]
      else []) ++
    (if interX1 < oldX1 then
        [Rect.mk (u16 interX1) inter.y (u16 (oldX1 - interX1)) inter.height]
      else [])

/-- Model of `union_rect` from sender.rs: the enclosing rectangle. -/
def unionRect (a b : Rect) : Rect :=
  let x0 := min a.x b.x
  let y0 := min a.y b.y
  let x1 := max (a.x + a.width) (b.x + b.width)
  let y1 := max (a.y + a.height) (b.y + b.height)
  ⟨u16 x0, u16 y0, u16 (x1 - x0), u16 (y1 - y0)⟩

/-- Area of the intersection of two rectangles (0 when they do not overlap). -/
def interAreaOf (a b : Rect) : Nat :=
  match rectIntersection a b with
  | none => 0
  | some i => rectArea i

/-! ## KGP protocol codec (kgp.rs)

Byte blocks are modelled as `String`s; the tmux pass-through envelope
constants mirror `TMUX_START`, `TMUX_ESCAPE`, `TMUX_CLOSE`. -/

def tmuxStart : String := "\x1bPtmux;\x1b\x1b"

def tmuxEscape : String := "\x1b\x1b"

def tmuxClose : String := "\x1b\\"

/-- The `(start, escape, close)` triple selected by the `is_tmux` flag in
`delete_all`, `delete_by_id` and `encode_chunks`. -/
def envelope (isTmux : Bool) : String × String × String :=
  if isTmux then (tmuxStart, tmuxEscape, tmuxClose) else ("\x1b", "\x1b", "")

/-- Model of `delete_all` from kgp.rs: remove all graphics (`d=a` then `d=A`). -/
def deleteAll (isTmux : Bool) : String :=
  let (start, escape, close) := envelope isTmux
  start ++ "_Gq=2,a=d,d=a" ++ escape ++ "\\" ++ close ++
    start ++ "_Gq=2,a=d,d=A" ++ escape ++ "\\" ++ close

/-- Model of `delete_by_id` from kgp.rs. -/
def deleteById (id : Nat) (isTmux : Bool) : String :=
  let (start, escape, close) := envelope isTmux
  start ++ "_Gq=2,a=d,d=i,i=" ++ toString id ++ escape ++ "\\" ++ close

/-- The 297 diacritic code points of kgp.rs (`DIACRITICS`), as raw scalars. -/
def diacriticCodes : List Nat := [
    0x305, 0x30D, 0x30E, 0x310, 0x312, 0x33D, 0x33E, 0x33F, 0x346, 0x34A, 0x34B, 0x34C,
    0x350, 0x351, 0x352, 0x357, 0x35B, 0x363, 0x364, 0x365, 0x366, 0x367, 0x368, 0x369,
    0x36A, 0x36B, 0x36C, 0x36D, 0x36E, 0x36F, 0x483, 0x484, 0x485, 0x486, 0x487, 0x592,
    0x593, 0x594, 0x595, 0x597, 0x598, 0x599, 0x59C, 0x59D, 0x59E, 0x59F, 0x5A0, 0x5A1,
    0x5A8, 0x5A9, 0x5AB, 0x5AC, 0x5AF, 0x5C4, 0x610, 0x611, 0x612, 0x613, 0x614, 0x615,
    0x616, 0x617, 0x657, 0x658, 0x659, 0x65A, 0x65B, 0x65D, 0x65E, 0x6D6, 0x6D7, 0x6D8,
    0x6D9, 0x6DA, 0x6DB, 0x6DC, 0x6DF, 0x6E0, 0x6E1, 0x6E2, 0x6E4, 0x6E7, 0x6E8, 0x6EB,
    0x6EC, 0x730, 0x732, 0x733, 0x735, 0x736, 0x73A, 0x73D, 0x73F, 0x740, 0x741, 0x743,
    0x745, 0x747, 0x749, 0x74A, 0x7EB, 0x7EC, 0x7ED, 0x7EE, 0x7EF, 0x7F0, 0x7F1, 0x7F3,
    0x816, 0x817, 0x818, 0x819, 0x81B, 0x81C, 0x81D, 0x81E, 0x81F, 0x820, 0x821, 0x822,
    0x823, 0x825, 0x826, 0x827, 0x829, 0x82A, 0x82B, 0x82C, 0x82D, 0x951, 0x953, 0x954,
    0xF82, 0xF83, 0xF86, 0xF87, 0x135D, 0x135E, 0x135F, 0x17DD, 0x193A, 0x1A17, 0x1A75, 0x1A76,
    0x1A77, 0x1A78, 0x1A79, 0x1A7A, 0x1A7B, 0x1A7C, 0x1B6B, 0x1B6D, 0x1B6E, 0x1B6F, 0x1B70, 0x1B71,
    0x1B72, 0x1B73, 0x1CD0, 0x1CD1, 0x1CD2, 0x1CDA, 0x1CDB, 0x1CE0, 0x1DC0, 0x1DC1, 0x1DC3, 0x1DC4,
    0x1DC5, 0x1DC6, 0x1DC7, 0x1DC8, 0x1DC9, 0x1DCB, 0x1DCC, 0x1DD1, 0x1DD2, 0x1DD3, 0x1DD4, 0x1DD5,
    0x1DD6, 0x1DD7, 0x1DD8, 0x1DD9, 0x1DDA, 0x1DDB, 0x1DDC, 0x1DDD, 0x1DDE, 0x1DDF, 0x1DE0, 0x1DE1,
    0x1DE2, 0x1DE3, 0x1DE4, 0x1DE5, 0x1DE6, 0x1DFE, 0x20D0, 0x20D1, 0x20D4, 0x20D5, 0x20D6, 0x20D7,
    0x20DB, 0x20DC, 0x20E1, 0x20E7, 0x20E9, 0x20F0, 0x2CEF, 0x2CF0, 0x2CF1, 0x2DE0, 0x2DE1, 0x2DE2,
    0x2DE3, 0x2DE4, 0x2DE5, 0x2DE6, 0x2DE7, 0x2DE8, 0x2DE9, 0x2DEA, 0x2DEB, 0x2DEC, 0x2DED, 0x2DEE,
    0x2DEF, 0x2DF0, 0x2DF1, 0x2DF2, 0x2DF3, 0x2DF4, 0x2DF5, 0x2DF6, 0x2DF7, 0x2DF8, 0x2DF9, 0x2DFA,
    0x2DFB, 0x2DFC, 0x2DFD, 0x2DFE, 0x2DFF, 0xA66F, 0xA67C, 0xA67D, 0xA6F0, 0xA6F1, 0xA8E0, 0xA8E1,
    0xA8E2, 0xA8E3, 0xA8E4, 0xA8E5, 0xA8E6, 0xA8E7, 0xA8E8, 0xA8E9, 0xA8EA, 0xA8EB, 0xA8EC, 0xA8ED,
    0xA8EE, 0xA8EF, 0xA8F0, 0xA8F1, 0xAAB0, 0xAAB2, 0xAAB3, 0xAAB7, 0xAAB8, 0xAABE, 0xAABF, 0xAAC1,
    0xFE20, 0xFE21, 0xFE22, 0xFE23, 0xFE24, 0xFE25, 0xFE26, 0x10A0F, 0x10A38, 0x1D185, 0x1D186, 0x1D187,
    0x1D188, 0x1D189, 0x1D1AA, 0x1D1AB, 0x1D1AC, 0x1D1AD, 0x1D242, 0x1D243, 0x1D244]

/-- The diacritic table as characters. -/
def DIACRITICS : List Char := diacriticCodes.map Char.ofNat

/-- Model of `DIACRITICS.get(i).unwrap_or(&DIACRITICS[0])`. -/
def diacriticAt (i : Nat) : Char := DIACRITICS.getD i (Char.ofNat 0x305)

/-- The fixed placeholder code point `U+10EEEE` used by Unicode placement. -/
def placeholderChar : Char := Char.ofNat 0x10EEEE

/-- One placement cell: placeholder plus three diacritics encoding
(row index, column index, identifier extra octet). -/
def placeCell (y x idExtra : Nat) : String :=
  String.mk [placeholderChar, diacriticAt y, diacriticAt x, diacriticAt idExtra]

/-- Model of `place_rows` from kgp.rs: one byte block per row of the placement area. -/
def placeRows (area : Rect) (id : Nat) : List String :=
  if area.width = 0 ∨ area.height = 0 then []
  else
    let idExtra := (id >>> 24) % 256
    let r := (id >>> 16) % 256
    let g := (id >>> 8) % 256
    let b := id % 256
    (List.range area.height).map fun y =>
      "\x1b[38;2;" ++ toString r ++ ";" ++ toString g ++ ";" ++ toString b ++ "m" ++
      "\x1b[" ++ toString (area.y + y + 1) ++ ";" ++ toString (area.x + 1) ++ "H" ++
      ((List.range area.width).foldl (fun acc x => acc ++ placeCell y x idExtra) "") ++
      "\x1b[0m"

/-- Model of `erase_rows` from kgp.rs: per row, a cursor move plus an
"erase N characters" request sized to the rectangle width. -/
def eraseRows (area : Rect) : List String :=
  if area.width = 0 ∨ area.height = 0 then []
  else
    (List.range area.height).map fun y =>
      "\x1b[" ++ toString (area.y + y + 1) ++ ";" ++ toString (area.x + 1) ++ "H" ++
      "\x1b[" ++ toString area.width ++ "X"

/-! ### Base64 (standard alphabet, padding) and transmit chunking -/

def b64Alphabet : List Char :=
  "ABCDEFGHIJKLMNOPQRSTUVWXYZabcdefghijklmnopqrstuvwxyz0123456789+/".toList

def b64Char (n : Nat) : Char := b64Alphabet.getD n 'A'

/-- Standard base64 of a byte sequence (each input `Nat` is one byte). -/
def base64Encode : List Nat → List Char
  | [] => []
  | [a] =>
      [b64Char (a / 4), b64Char (a % 4 * 16), '=', '=']
  | [a, b] =>
      [b64Char (a / 4), b64Char (a % 4 * 16 + b / 16), b64Char (b % 16 * 4), '=']
  | a :: b :: c :: rest =>
      b64Char (a / 4) :: b64Char (a % 4 * 16 + b / 16) ::
        b64Char (b % 16 * 4 + c / 64) :: b64Char (c % 64) :: base64Encode rest

/-- Model of `slice::chunks(4096)` of the base64 text: the i-th chunk is the 4096-wide
window starting at offset `4096 * i`. -/
def chunks4096 (l : List Char) : List (List Char) :=
  (List.range ((l.length + 4095) / 4096)).map fun i => ((l.drop (4096 * i)).take 4096)

/-- An in-memory pixel buffer as matched by `encode_chunks`
(`DynamicImage::ImageRgb8` / `ImageRgba8`; other variants are converted to
RGB8 before encoding, so two constructors suffice). -/
inductive PixelImage where
  | rgb8 (width height : Nat) (raw : List Nat) : PixelImage
  | rgba8 (width height : Nat) (raw : List Nat) : PixelImage
deriving DecidableEq, Repr

def PixelImage.width : PixelImage → Nat
  | .rgb8 w _ _ => w
  | .rgba8 w _ _ => w

def PixelImage.height : PixelImage → Nat
  | .rgb8 _ h _ => h
  | .rgba8 _ h _ => h

/-- Continuation chunks of `encode_chunks`: each carries only an `m=0|1`
header and its base64 payload (`m=1` while more chunks follow). -/
def contChunks (start escape close : String) : List (List Char) → List String
  | [] => []
  | c :: rest =>
      (start ++ "_Gm=" ++ (if rest.isEmpty then "0" else "1") ++ ";" ++
        String.mk c ++ escape ++ "\\" ++ close) :: contChunks start escape close rest

/-- Model of `encode_chunks` from kgp.rs (lines 131-172). Note: the source function
takes no compression level and always base64-encodes the raw pixel payload. -/
def encodeChunks (img : PixelImage) (id : Nat) (isTmux : Bool) : List String :=
  let (raw, format) : List Nat × Nat :=
    match img with
    | .rgb8 _ _ v => (v, 24)
    | .rgba8 _ _ v => (v, 32)
  let b64 := base64Encode raw
  let cs := chunks4096 b64
  let (start, escape, close) := envelope isTmux
  match cs with
  | [] => []
  | first :: rest =>
      (start ++ "_Gq=2,a=T,C=1,U=1,f=" ++ toString format ++
        ",s=" ++ toString img.width ++ ",v=" ++ toString img.height ++
        ",i=" ++ toString id ++ ",m=" ++ (if rest.isEmpty then "0" else "1") ++ ";" ++
        String.mk first ++ escape ++ "\\" ++ close) :: contChunks start escape close rest

/-! ## Terminal writer (sender.rs) -/

/-- Completion kinds reported by the writer thread. -/
inductive WriterResultKind where
  | transmitDone (kgpId : Nat) : WriterResultKind
deriving DecidableEq, Repr

/-- An epoch-tagged completion event (`WriterResult`). -/
structure WriterResultEvt where
  kind : WriterResultKind
  epoch : Nat
deriving DecidableEq, Repr

/-- A writer task: a FIFO of byte blocks plus completion kind and epoch. -/
structure Task where
  chunks : List String
  complete : Option WriterResultKind
  epoch : Nat
  clearsDirty : Bool
deriving DecidableEq, Repr

/-- Model of `cleanup_rects` from sender.rs: the strips of the accumulated dirty
area not covered by the new placement area. -/
def cleanupRects (area : Rect) (dirtyArea : Option Rect) : List Rect :=
  match dirtyArea with
  | some dirty => rectDiff dirty area
  | none => []

/-- Model of `TerminalWriter::task_transmit` from sender.rs: expand an Image-transmit
request into its byte-block FIFO by successive `push_back`s. -/
def taskTransmit (encodedChunks : List String) (area : Rect) (kgpId : Nat)
    (oldArea : Option Rect) (dirtyArea : Option Rect) (epoch : Nat)
    (isTmux : Bool) : Task :=
  let chunks : List String := []
  let chunks :=
    match oldArea with
    | some old => (eraseRows old).foldl (fun acc row => acc ++ [row]) chunks
    | none => chunks
  let chunks :=
    (cleanupRects area dirtyArea).foldl
      (fun acc cleanup => (eraseRows cleanup).foldl (fun a row => a ++ [row]) acc)
      chunks
  let chunks := chunks ++ [deleteById kgpId isTmux]
  let chunks := encodedChunks.foldl (fun acc enc => acc ++ [enc]) chunks
  let chunks := (placeRows area kgpId).foldl (fun acc row => acc ++ [row]) chunks
  { chunks := chunks
    complete := some (WriterResultKind.transmitDone kgpId)
    epoch := epoch
    clearsDirty := dirtyArea.isSome }

/-! ### UTF-8 status clipping (`clip_utf8`)

A `&str` is modelled as a `List Char`; byte positions are recovered from
`Char.utf8Size`. -/

/-- Byte length of a string (`str::len`). -/
def byteLen (s : List Char) : Nat := (s.map Char.utf8Size).sum

/-- The byte offsets produced by `char_indices` (each char start), with
accumulated offset `off`. -/
def charStartsAux (off : Nat) : List Char → List Nat
  | [] => []
  | c :: cs => off :: charStartsAux (off + c.utf8Size) cs

/-- The `for (i, _) in s.char_indices()` loop of `clip_utf8`: remember the
last boundary not exceeding `maxBytes`, breaking at the first one beyond. -/
def clipEndLoop (maxBytes e : Nat) : List Nat → Nat
  | [] => e
  | i :: rest => if maxBytes < i then e else clipEndLoop maxBytes i rest

/-- The byte slice `&s[..n]` for a boundary offset `n`. -/
def takeBytes : List Char → Nat → List Char
  | [], _ => []
  | c :: cs, n => if n = 0 then [] else c :: takeBytes cs (n - c.utf8Size)

/-- Model of `clip_utf8` from sender.rs. -/
def clipUtf8 (s : List Char) (maxBytes : Nat) : List Char :=
  if byteLen s ≤ maxBytes then s
  else takeBytes s (clipEndLoop maxBytes 0 (charStartsAux 0 s))

/-- Reference greedy clipping: take characters while their bytes fit. -/
def greedyClip : List Char → Nat → List Char
  | [], _ => []
  | c :: cs, budget =>
      if c.utf8Size ≤ budget then c :: greedyClip cs (budget - c.utf8Size) else []

/-! ## Image worker (worker.rs): target size computation

The source `compute_target` works in `f64`. Each f64 division and
multiplication is modelled as the exact rational operation followed by a
rounding operator `fl`; the predicate `RoundOk fl` is the IEEE-754 binary64
guarantee (relative error at most `2^-53` under round-to-nearest) for
nonnegative operands in the normal range, which covers every value this
function manipulates (the ratios and products of nonzero u32 dimensions lie
far inside the normal range, so no subnormal or overflow case arises).
`min`, `floor()`, `max(1.0)` and the `as u32` cast are exact in f64 and are
modelled exactly; `id` is the zero-error instance of `fl`. -/

/-- Unit roundoff of IEEE-754 binary64 under round-to-nearest. -/
def eps64 : ℚ := 1 / 2 ^ 53

/-- The f64 rounding abstraction: every rounded result lies within relative
error `eps64` of the exact nonnegative operand. -/
def RoundOk (fl : ℚ → ℚ) : Prop :=
  ∀ q : ℚ, 0 ≤ q → |fl q - q| ≤ eps64 * q

/-- Model of `(q).floor().max(1.0) as u32` for a nonnegative rational. -/
def floorClamp1 (q : ℚ) : Nat := (max 1 ⌊q⌋).toNat

/-- Model of `ImageWorker::compute_target` from worker.rs, with `fl` the
rounding applied by each f64 division and multiplication. -/
def computeTargetFp (fl : ℚ → ℚ) (orig maxBox : Nat × Nat)
    (fitMode : FitMode) : Nat × Nat :=
  let (origW, origH) := orig
  let (maxW, maxH) := maxBox
  match fitMode with
  | FitMode.Normal =>
      if maxW < origW ∨ maxH < origH then
        let scaleW := fl ((maxW : ℚ) / (origW : ℚ))
        let scaleH := fl ((maxH : ℚ) / (origH : ℚ))
        let scale := min scaleW scaleH
        (floorClamp1 (fl ((origW : ℚ) * scale)),
          floorClamp1 (fl ((origH : ℚ) * scale)))
      else (origW, origH)
  | FitMode.Fit =>
      let scaleW := fl ((maxW : ℚ) / (origW : ℚ))
      let scaleH := fl ((maxH : ℚ) / (origH : ℚ))
      let scale := min scaleW scaleH
      (floorClamp1 (fl ((origW : ℚ) * scale)),
        floorClamp1 (fl ((origH : ℚ) * scale)))

/-! ## Orchestrator state (app.rs) -/

/-- Cache key for rendered images: `(path, target_size, fit_mode)`
(paths modelled as strings). -/
def CacheKey : Type := String × (Nat × Nat) × FitMode

instance : DecidableEq CacheKey := by
  unfold CacheKey; infer_instance

instance : Repr CacheKey := by
  unfold CacheKey; infer_instance

/-- One render cache entry (`RenderedImage`). -/
structure RenderedImage where
  originalSize : Nat × Nat
  actualSize : Nat × Nat
  encodedChunks : List String
deriving DecidableEq, Repr

/-- Model of `KgpState` from kgp.rs: the placement record. -/
structure KgpSt where
  lastArea : Option Rect
  lastKgpId : Option Nat
deriving DecidableEq, Repr

/-- Model of `KgpState::default()`. -/
def KgpSt.default : KgpSt := { lastArea := none, lastKgpId := none }

/-- Model of `KgpState::set_last`. -/
def KgpSt.setLast (_k : KgpSt) (area : Rect) (kgpId : Nat) : KgpSt :=
  { lastArea := some area, lastKgpId := some kgpId }

/-- Model of `KgpState::invalidate`: drop the identifier, keep the area for cleanup. -/
def KgpSt.invalidate (k : KgpSt) : KgpSt :=
  { k with lastKgpId := none }

/-- Model of `PrefetchSignature` from app.rs. -/
structure PrefetchSignature where
  viewMode : ViewMode
  fitMode : FitMode
  target : Nat × Nat
  prefetchCount : Nat
  anchor : Nat
  grid : Option (Nat × Nat)
deriving DecidableEq, Repr

/-- Requests sent to the writer thread (the constructors exercised by the
orchestrator operations modelled here). -/
inductive WriterReq where
  | clearAll (area : Option Rect) (isTmux : Bool) : WriterReq
  | cancelImage (area : Option Rect) (epoch : Nat) : WriterReq
deriving DecidableEq, Repr

/-- The orchestrator (`App`) state owned by the main thread. The prefetch
worker is represented by its atomic epoch counter; requests sent to the
writer are returned explicitly by each operation. -/
structure AppState where
  images : List String
  currentIndex : Nat
  fitMode : FitMode
  viewMode : ViewMode
  tileCursor : Nat
  prevTileCursor : Option Nat
  kgpState : KgpSt
  pendingRequest : Option CacheKey
  renderCache : List (CacheKey × RenderedImage)
  renderCacheOrder : List CacheKey
  renderCacheLimit : Nat
  kgpId : Nat
  inFlightTransmit : Bool
  pendingDisplay : Option Rect
  renderEpoch : Nat
  clearAfterNav : Bool
  isTmux : Bool
  lastPrefetchSignature : Option PrefetchSignature
  prefetchEpoch : Nat
deriving DecidableEq, Repr

/-- Model of `u64::saturating_add(1)` (the render epoch bump). -/
def satSucc64 (n : Nat) : Nat := min (n + 1) (2 ^ 64 - 1)

/-- Model of `AtomicU64::fetch_add(1)` wrap-around (the prefetch epoch bump). -/
def wrapSucc64 (n : Nat) : Nat := (n + 1) % 2 ^ 64

/-- Model of `App::invalidate_render`: drop the pending request and cancel prefetch;
deliberately does not touch `in_flight_transmit`. -/
def invalidateRender (s : AppState) : AppState :=
  { s with
    pendingRequest := none
    prefetchEpoch := wrapSucc64 s.prefetchEpoch
    lastPrefetchSignature := none }

/-- Model of `App::move_by` from app.rs (lines 165-172). -/
def moveBy (s : AppState) (delta : Int) : AppState :=
  if delta = 0 ∨ s.images = [] then s
  else
    let len : Int := (s.images.length : Int)
    invalidateRender
      { s with
        currentIndex := ((((s.currentIndex : Int) + delta) % len)).toNat }

/-- Model of `App::cancel_image_output`: bump the render epoch, request a writer-side
cancel over the pending display area, and reset the in-flight state. -/
def cancelImageOutput (s : AppState) : AppState × List WriterReq :=
  let epoch := satSucc64 s.renderEpoch
  let cancelArea := s.pendingDisplay
  ({ s with
      renderEpoch := epoch
      clearAfterNav := true
      inFlightTransmit := false
      pendingDisplay := none
      kgpState := s.kgpState.invalidate },
    [WriterReq.cancelImage cancelArea epoch])

/-- Model of `App::clear_kgp_overlay`: request a ClearAll over the last placed area,
if any; no orchestrator state is modified. -/
def clearKgpOverlay (s : AppState) : List WriterReq :=
  match s.kgpState.lastArea with
  | none => []
  | some area => [WriterReq.clearAll (some area) s.isTmux]

/-- Model of `App::reload` from app.rs (lines 287-295). -/
def reload (s : AppState) : AppState × List WriterReq :=
  let (s1, reqs) := cancelImageOutput s
  ({ s1 with
      renderCache := []
      renderCacheOrder := []
      pendingRequest := none
      kgpState := KgpSt.default
      prefetchEpoch := wrapSucc64 s1.prefetchEpoch
      lastPrefetchSignature := none },
    reqs)

/-- Model of `App::handle_resize` from app.rs (lines 298-308). -/
def handleResize (s : AppState) : AppState × List WriterReq :=
  let reqs := clearKgpOverlay s
  ({ s with
      renderCache := []
      renderCacheOrder := []
      pendingRequest := none
      kgpState := KgpSt.default
      prefetchEpoch := wrapSucc64 s.prefetchEpoch
      lastPrefetchSignature := none },
    reqs)

/-! ### Render cache (LRU) operations

`HashMap<CacheKey, RenderedImage>` is modelled as an association list with
distinct keys; `VecDeque<CacheKey>` as a list whose last element is the
most-recent end (matching `push_back` / `pop_front`). -/

/-- The keys of an association list. -/
def keysOf (m : List (CacheKey × RenderedImage)) : List CacheKey :=
  m.map Prod.fst

/-- Model of `HashMap::insert` (overwrite or append). -/
def insertAssoc (m : List (CacheKey × RenderedImage)) (k : CacheKey)
    (v : RenderedImage) : List (CacheKey × RenderedImage) :=
  if k ∈ keysOf m then m.map (fun p => if p.1 = k then (k, v) else p)
  else m ++ [(k, v)]

/-- Model of `HashMap::remove`. -/
def eraseAssoc (m : List (CacheKey × RenderedImage)) (k : CacheKey) :
    List (CacheKey × RenderedImage) :=
  m.filter (fun p => p.1 ≠ k)

/-- Model of `App::insert_to_cache` from app.rs (lines 397-423). -/
def insertToCache (s : AppState) (key : CacheKey) (originalSize actualSize : Nat × Nat)
    (encodedChunks : List String) : AppState :=
  let s :=
    if key ∈ keysOf s.renderCache then
      { s with renderCacheOrder := s.renderCacheOrder.filter (fun k => k ≠ key) }
    else if s.renderCacheLimit ≤ s.renderCache.length then
      match s.renderCacheOrder with
      | oldestKey :: restOrder =>
          { s with
            renderCacheOrder := restOrder
            renderCache := eraseAssoc s.renderCache oldestKey }
      | [] => s
    else s
  { s with
    renderCacheOrder := s.renderCacheOrder ++ [key]
    renderCache :=
      insertAssoc s.renderCache key
        { originalSize := originalSize
          actualSize := actualSize
          encodedChunks := encodedChunks } }

/-- Model of `App::touch_render_cache` from app.rs (lines 425-434). -/
def touchRenderCache (s : AppState) (key : CacheKey) : AppState :=
  if s.renderCacheOrder.getLast? = some key then s
  else if key ∉ keysOf s.renderCache then s
  else
    { s with
      renderCacheOrder := s.renderCacheOrder.filter (fun k => k ≠ key) ++ [key] }

/-- The render cache invariant: size bounded by the configured limit, keys
of map and recency list in exact one-to-one correspondence. -/
def CacheInv (s : AppState) : Prop :=
  s.renderCache.length ≤ s.renderCacheLimit ∧
  s.renderCacheOrder.Nodup ∧
  (keysOf s.renderCache).Nodup ∧
  ∀ k, k ∈ s.renderCacheOrder ↔ k ∈ keysOf s.renderCache

/-- Model of `App::poll_writer`, one received completion (app.rs lines 436-449). -/
def pollWriterStep (s : AppState) (r : WriterResultEvt) : AppState :=
  if r.epoch ≠ s.renderEpoch then s
  else
    let s1 :=
      match r.kind with
      | WriterResultKind.transmitDone _ => { s with inFlightTransmit := false }
    match s1.pendingDisplay with
    | some area =>
        { s1 with
          pendingDisplay := none
          kgpState := s1.kgpState.setLast area s1.kgpId }
    | none => s1

/-- Model of `App::poll_writer` over a drained queue of completions. -/
def pollWriter (s : AppState) (rs : List WriterResultEvt) : AppState :=
  rs.foldl pollWriterStep s

/-! ### KGP identifier generation (app.rs lines 140-163) -/

/-- Model of `u32::rotate_left(8)` for `x < 2^32`. -/
def rotl8u32 (x : Nat) : Nat := x % 2 ^ 24 * 2 ^ 8 + x / 2 ^ 24

/-- One hash candidate: `idx.wrapping_mul(0x9E3779B1).rotate_left(8)`. -/
def kgpCandidate (idx : Nat) : Nat := rotl8u32 (idx * 0x9E3779B1 % 2 ^ 32)

/-- The candidate search loop of `generate_kgp_id`, with the remaining
attempt budget as fuel; falls back to `0x10_10_10_10` when exhausted. -/
def kgpLoop : Nat → Nat → Nat
  | 0, _ => 0x10101010
  | n + 1, idx =>
      let id := kgpCandidate idx
      let r := id >>> 16 % 256
      let g := id >>> 8 % 256
      let b := id % 256
      if 16 ≤ r ∧ 16 ≤ g ∧ 16 ≤ b then id
      else kgpLoop n ((idx + 1) % 2 ^ 32)

/-- Model of `App::generate_kgp_id`, seeded with the process id. -/
def generateKgpId (pid : Nat) : Nat := kgpLoop 10000 (pid % 2 ^ 32)

/-- Sample orchestrator state used by concrete witnesses. -/
def sampleApp : AppState :=
  { images := ["a.png", "b.png", "c.png"]
    currentIndex := 0
    fitMode := FitMode.Normal
    viewMode := ViewMode.Single
    tileCursor := 0
    prevTileCursor := none
    kgpState := { lastArea := some ⟨0, 0, 4, 4⟩, lastKgpId := some 42 }
    pendingRequest := none
    renderCache := []
    renderCacheOrder := []
    renderCacheLimit := 2
    kgpId := 42
    inFlightTransmit := true
    pendingDisplay := some ⟨0, 0, 1, 1⟩
    renderEpoch := 0
    clearAfterNav := false
    isTmux := false
    lastPrefetchSignature := none
    prefetchEpoch := 0 }

/-! ## Theorems -/

/-- Pushing the elements of a list one by one onto an accumulator appends it. -/
theorem foldl_push {α : Type} (l : List α) (init : List α) :
    l.foldl (fun acc x => acc ++ [x]) init = init ++ l := by
  induction l generalizing init with
  | nil => simp
  | cons x xs ih => simp [List.foldl_cons, ih]

/-- Folding list-append of the image of each element appends the flattened map. -/
theorem foldl_append_map {α β : Type} (f : α → List β) (l : List α) (init : List β) :
    l.foldl (fun acc x => acc ++ f x) init = init ++ (l.map f).flatten := by
  induction l generalizing init with
  | nil => simp
  | cons x xs ih => simp [List.foldl_cons, ih]

/-- Pushing the rows of every cleanup rectangle appends the flattened rows. -/
theorem foldl_push_rows (rects : List Rect) (init : List String) :
    rects.foldl
        (fun acc cleanup => (eraseRows cleanup).foldl (fun a row => a ++ [row]) acc)
        init =
      init ++ (rects.map eraseRows).flatten := by
  simp only [foldl_push]
  exact foldl_append_map eraseRows rects init

/-- C3: an Image-transmit writer task expands to exactly: erase rows of the
old placement area (when supplied), erase rows for each strip of the dirty
area minus the new area, the delete-by-id sequence, the transmit chunks,
and finally the placement rows over the new area — in this order. -/
theorem task_transmit_expansion (encodedChunks : List String) (area : Rect)
    (kgpId : Nat) (oldArea dirtyArea : Option Rect) (epoch : Nat) (isTmux : Bool) :
    (taskTransmit encodedChunks area kgpId oldArea dirtyArea epoch isTmux).chunks =
      (match oldArea with
        | some old => eraseRows old
        | none => []) ++
      ((cleanupRects area dirtyArea).map eraseRows).flatten ++
      [deleteById kgpId isTmux] ++
      encodedChunks ++
      placeRows area kgpId := by
  cases oldArea <;>
    simp [taskTransmit, foldl_push, foldl_append_map, List.append_assoc]

/-- C8 helper: every value produced by the candidate search loop has its
three channel octets at least 0x10, whatever the fuel and start index. -/
theorem kgpLoop_octets (n idx : Nat) :
    16 ≤ kgpLoop n idx >>> 16 % 256 ∧
    16 ≤ kgpLoop n idx >>> 8 % 256 ∧
    16 ≤ kgpLoop n idx % 256 := by
  induction n generalizing idx with
  | zero =>
      simp only [kgpLoop]
      decide
  | succ m ih =>
      rw [kgpLoop]
      split
      · assumption
      · exact ih _

/-- C8: for every process-id seed, the generated KGP identifier has each of
its three channel octets at least 0x10, in both the hash-found and the
fallback case. -/
theorem generate_kgp_id_octets (pid : Nat) :
    16 ≤ generateKgpId pid >>> 16 % 256 ∧
    16 ≤ generateKgpId pid >>> 8 % 256 ∧
    16 ≤ generateKgpId pid % 256 :=
  kgpLoop_octets 10000 (pid % 2 ^ 32)

/-- C10: `move_by` is total; with an empty image list or a zero delta it
returns with the whole application state unchanged (no invalidation side
effects), and otherwise the Euclidean wrap keeps the index in range. -/
theorem move_by_total (s : AppState) (d : Int) :
    ((d = 0 ∨ s.images = []) → moveBy s d = s) ∧
    (¬(d = 0 ∨ s.images = []) →
      (moveBy s d).currentIndex < s.images.length ∧
      (moveBy s d).pendingRequest = none ∧
      (moveBy s d).lastPrefetchSignature = none) := by
  constructor
  · intro h
    simp [moveBy, h]
  · intro h
    have himg : s.images ≠ [] := fun hc => h (Or.inr hc)
    have hlen : 0 < s.images.length := List.length_pos.mpr himg
    have hlen' : (0 : Int) < (s.images.length : Int) := by exact_mod_cast hlen
    have hnn := Int.emod_nonneg ((s.currentIndex : Int) + d)
      (by omega : ((s.images.length : Int)) ≠ 0)
    have hlt := Int.emod_lt_of_pos ((s.currentIndex : Int) + d) hlen'
    simp only [moveBy, if_neg h, invalidateRender]
    and_intros <;> first | trivial | omega

/-- C10 witness: a zero delta leaves the sample state untouched. -/
theorem move_by_total_witness : moveBy sampleApp 0 = sampleApp :=
  (move_by_total sampleApp 0).1 (Or.inl rfl)

/-- C5: a writer completion whose epoch is strictly older than the current
render epoch leaves the orchestrator state completely unchanged. -/
theorem poll_writer_stale_dropped (s : AppState) (r : WriterResultEvt)
    (h : r.epoch < s.renderEpoch) : pollWriterStep s r = s := by
  have hne : r.epoch ≠ s.renderEpoch := Nat.ne_of_lt h
  simp [pollWriterStep, hne]

/-- C5 witness: a stale completion is dropped on a concrete state. -/
theorem poll_writer_stale_dropped_witness :
    pollWriterStep { sampleApp with renderEpoch := 5 }
        { kind := WriterResultKind.transmitDone 42, epoch := 3 } =
      { sampleApp with renderEpoch := 5 } :=
  poll_writer_stale_dropped _ _ (by decide)

/-- C1 counterexample: on a concrete state with a transmit in flight,
`handle_resize` does not perform the state changes of `reload`: it leaves
`in_flight_transmit`, the render epoch and `pending_display` untouched,
while `reload` cancels the in-flight output. -/
theorem handle_resize_not_reload :
    (handleResize sampleApp).1.inFlightTransmit = true ∧
    (reload sampleApp).1.inFlightTransmit = false ∧
    (handleResize sampleApp).1.renderEpoch ≠ (reload sampleApp).1.renderEpoch ∧
    (handleResize sampleApp).1.pendingDisplay ≠ (reload sampleApp).1.pendingDisplay := by
  refine ⟨rfl, rfl, ?_, ?_⟩ <;> decide

/-- C1 (amended): `handle_resize` performs the same render-cache clear,
pending-request drop, placement-record clear and prefetch cancellation as
`reload`, but instead of cancelling the in-flight image output it emits a
ClearAll over the last placed area (the writer's KGP overlay); the render
epoch, `in_flight_transmit`, `pending_display` and `clear_after_nav` are
left untouched, whereas `reload` sends a CancelImage with a bumped epoch. -/
theorem handle_resize_spec (s : AppState) :
    ((handleResize s).1.renderCache = (reload s).1.renderCache ∧
     (handleResize s).1.renderCacheOrder = (reload s).1.renderCacheOrder ∧
     (handleResize s).1.pendingRequest = (reload s).1.pendingRequest ∧
     (handleResize s).1.kgpState = (reload s).1.kgpState ∧
     (handleResize s).1.prefetchEpoch = (reload s).1.prefetchEpoch ∧
     (handleResize s).1.lastPrefetchSignature = (reload s).1.lastPrefetchSignature) ∧
    (handleResize s).1.renderEpoch = s.renderEpoch ∧
    (handleResize s).1.inFlightTransmit = s.inFlightTransmit ∧
    (handleResize s).1.pendingDisplay = s.pendingDisplay ∧
    (handleResize s).1.clearAfterNav = s.clearAfterNav ∧
    (handleResize s).2 = clearKgpOverlay s ∧
    (reload s).2 = [WriterReq.cancelImage s.pendingDisplay (satSucc64 s.renderEpoch)] := by
  simp [handleResize, reload, cancelImageOutput, clearKgpOverlay]

/-- C2: evaluation of kgp.rs `encode_chunks` at the failing input — the
1×1 RGB pixel `[255, 0, 0]` that worker.rs submits together with
`compress_level = Some(6)`. The encoder accepts no compression level and
the chunk payload is the base64 of the raw, uncompressed pixel bytes. -/
theorem encode_chunks_payload_uncompressed :
    encodeChunks (PixelImage.rgb8 1 1 [255, 0, 0]) 42 false =
      ["\x1b_Gq=2,a=T,C=1,U=1,f=24,s=1,v=1,i=42,m=0;/wAA\x1b\\"] ∧
    String.mk (base64Encode [255, 0, 0]) = "/wAA" := by
  constructor <;> rfl

/-- The identity is a valid rounding operator (zero error). -/
theorem roundOk_id : RoundOk id := by
  intro q hq
  simp only [id_eq, sub_self, abs_zero]
  have he : (0 : ℚ) ≤ eps64 := by norm_num [eps64]
  exact mul_nonneg he hq

/-- C9 counterexample: with the degenerate maximum box `(0, 5)` and original
size `(1, 1)` the Fit-mode target is `(1, 1)` (the minimum-1 clamp), so
neither returned dimension equals its corresponding maximum. At this input
every f64 operation is exact, so the zero-error instance `id` reproduces the
program bit for bit. -/
theorem compute_target_fit_not_saturating_at_zero :
    (computeTargetFp id (1, 1) (0, 5) FitMode.Fit).1 ≠ 0 ∧
    (computeTargetFp id (1, 1) (0, 5) FitMode.Fit).2 ≠ 5 := by
  have h : computeTargetFp id (1, 1) (0, 5) FitMode.Fit = (1, 1) := by
    simp only [computeTargetFp, floorClamp1, id_eq]
    norm_num
  rw [h]
  exact ⟨by decide, by decide⟩

/-- C9 helper: rounding the ratio and then the product loses less than one
unit: for any rounding within the binary64 error bound, a positive divisor
and a u32-sized positive `m`, the floored and clamped result of
`ow * fl(m / ow)` is `m` or `m - 1`. -/
theorem floorClamp1_rounded_sat (fl : ℚ → ℚ) (hfl : RoundOk fl) (ow m : Nat)
    (how : 1 ≤ ow) (hm1 : 1 ≤ m) (hmb : m < 2 ^ 32) :
    m - 1 ≤ floorClamp1 (fl ((ow : ℚ) * fl ((m : ℚ) / (ow : ℚ)))) ∧
    floorClamp1 (fl ((ow : ℚ) * fl ((m : ℚ) / (ow : ℚ)))) ≤ m := by
  have hW0 : (0 : ℚ) < (ow : ℚ) := by
    exact_mod_cast (by omega : 0 < ow)
  have hWne : ((ow : ℚ)) ≠ 0 := ne_of_gt hW0
  have hM1 : (1 : ℚ) ≤ (m : ℚ) := by exact_mod_cast hm1
  have hMb : (m : ℚ) < 2 ^ 32 := by exact_mod_cast hmb
  have he0 : (0 : ℚ) < eps64 := by norm_num [eps64]
  have he1 : eps64 ≤ 1 / 4 := by norm_num [eps64]
  set q : ℚ := (m : ℚ) / (ow : ℚ) with hqdef
  have hq0 : 0 ≤ q := by positivity
  have hWq : (ow : ℚ) * q = (m : ℚ) := by
    rw [hqdef]
    field_simp
  have hs := abs_le.mp (hfl q hq0)
  set s : ℚ := fl q with hsdef
  have hsl : q - eps64 * q ≤ s := by linarith [hs.1]
  have hsu : s ≤ q + eps64 * q := by linarith [hs.2]
  have heq : eps64 * q ≤ q := by nlinarith [hq0, he1, he0]
  have hs0 : 0 ≤ s := by linarith
  set p : ℚ := (ow : ℚ) * s with hpdef
  have hp0 : 0 ≤ p := mul_nonneg hW0.le hs0
  have hpl : (m : ℚ) - eps64 * (m : ℚ) ≤ p := by
    have h1 : (ow : ℚ) * (q - eps64 * q) ≤ p := by
      rw [hpdef]
      exact mul_le_mul_of_nonneg_left hsl hW0.le
    have h2 : (ow : ℚ) * (q - eps64 * q) =
        (ow : ℚ) * q - eps64 * ((ow : ℚ) * q) := by ring
    rw [h2, hWq] at h1
    linarith
  have hpu : p ≤ (m : ℚ) + eps64 * (m : ℚ) := by
    have h1 : p ≤ (ow : ℚ) * (q + eps64 * q) := by
      rw [hpdef]
      exact mul_le_mul_of_nonneg_left hsu hW0.le
    have h2 : (ow : ℚ) * (q + eps64 * q) =
        (ow : ℚ) * q + eps64 * ((ow : ℚ) * q) := by ring
    rw [h2, hWq] at h1
    linarith
  have hv := abs_le.mp (hfl p hp0)
  set v : ℚ := fl p with hvdef
  have hvl : p - eps64 * p ≤ v := by linarith [hv.1]
  have hvu : v ≤ p + eps64 * p := by linarith [hv.2]
  have hnum2 : (2 : ℚ) ^ 32 * (2 * eps64 + eps64 ^ 2) < 1 := by
    norm_num [eps64]
  have hnum3 : (0 : ℚ) < 2 * eps64 + eps64 ^ 2 := by positivity
  have hnum : (m : ℚ) * (2 * eps64 + eps64 ^ 2) < 1 := by
    have := mul_lt_mul_of_pos_right hMb hnum3
    linarith
  have hep : eps64 * p ≤ eps64 * ((m : ℚ) + eps64 * (m : ℚ)) :=
    mul_le_mul_of_nonneg_left hpu he0.le
  have hexp : (m : ℚ) + eps64 * (m : ℚ) + eps64 * ((m : ℚ) + eps64 * (m : ℚ)) =
      (m : ℚ) + (m : ℚ) * (2 * eps64 + eps64 ^ 2) := by ring
  have hvltM : v < (m : ℚ) + 1 := by
    have : v ≤ (m : ℚ) + eps64 * (m : ℚ) + eps64 * ((m : ℚ) + eps64 * (m : ℚ)) := by
      linarith
    rw [hexp] at this
    linarith
  have hexp2 : (m : ℚ) - eps64 * (m : ℚ) - eps64 * ((m : ℚ) + eps64 * (m : ℚ)) =
      (m : ℚ) - (m : ℚ) * (2 * eps64 + eps64 ^ 2) := by ring
  have hvgtM : (m : ℚ) - 1 < v := by
    have : (m : ℚ) - eps64 * (m : ℚ) - eps64 * ((m : ℚ) + eps64 * (m : ℚ)) ≤ v := by
      linarith
    rw [hexp2] at this
    linarith
  have hfl1 : ((m : ℤ) - 1) ≤ ⌊v⌋ := by
    apply Int.le_floor.mpr
    push_cast
    linarith
  have hfl2 : ⌊v⌋ ≤ (m : ℤ) := by
    have hlt : ⌊v⌋ < (m : ℤ) + 1 := by
      apply Int.floor_lt.mpr
      push_cast
      linarith
    omega
  unfold floorClamp1
  constructor <;> omega

/-- C9 (amended): when every original and maximum dimension is at least 1,
Fit mode saturates the box up to flooring: at least one returned dimension
is its corresponding maximum or falls exactly one short of it (the flooring
of the rounded scaled value), the scale being the smaller of the two
rounded ratios, each result floored and clamped to a minimum of 1. Proven
for every rounding operator within the binary64 error bound, hence for the
f64 arithmetic of the program; the maxima are u32 values, so the `< 2^32`
bounds always hold at the call sites. -/
theorem compute_target_fit_saturates (fl : ℚ → ℚ) (hfl : RoundOk fl)
    (origW origH maxW maxH : Nat)
    (how : 1 ≤ origW) (hoh : 1 ≤ origH) (hmw : 1 ≤ maxW) (hmh : 1 ≤ maxH)
    (hbw : maxW < 2 ^ 32) (hbh : maxH < 2 ^ 32) :
    (maxW - 1 ≤ (computeTargetFp fl (origW, origH) (maxW, maxH) FitMode.Fit).1 ∧
      (computeTargetFp fl (origW, origH) (maxW, maxH) FitMode.Fit).1 ≤ maxW) ∨
    (maxH - 1 ≤ (computeTargetFp fl (origW, origH) (maxW, maxH) FitMode.Fit).2 ∧
      (computeTargetFp fl (origW, origH) (maxW, maxH) FitMode.Fit).2 ≤ maxH) := by
  rcases le_total (fl ((maxW : ℚ) / (origW : ℚ))) (fl ((maxH : ℚ) / (origH : ℚ)))
    with hle | hle
  · left
    have h := floorClamp1_rounded_sat fl hfl origW maxW how hmw hbw
    simpa [computeTargetFp, min_eq_left hle] using h
  · right
    have h := floorClamp1_rounded_sat fl hfl origH maxH hoh hmh hbh
    simpa [computeTargetFp, min_eq_right hle] using h

/-- C9 witness: with exact rounding, a small image upscaled in Fit mode
lands within one flooring unit of the 800x600 box. -/
theorem compute_target_fit_saturates_witness :
    (800 - 1 ≤ (computeTargetFp id (100, 50) (800, 600) FitMode.Fit).1 ∧
      (computeTargetFp id (100, 50) (800, 600) FitMode.Fit).1 ≤ 800) ∨
    (600 - 1 ≤ (computeTargetFp id (100, 50) (800, 600) FitMode.Fit).2 ∧
      (computeTargetFp id (100, 50) (800, 600) FitMode.Fit).2 ≤ 600) :=
  compute_target_fit_saturates id roundOk_id 100 50 800 600 (by decide) (by decide)
    (by decide) (by decide) (by decide) (by decide)

/-- A UTF-8 character occupies at least one byte. -/
theorem utf8Size_pos (c : Char) : 0 < c.utf8Size := by
  simp [Char.utf8Size]
  split_ifs <;> decide

theorem byteLen_nil : byteLen [] = 0 := rfl

theorem byteLen_cons (c : Char) (cs : List Char) :
    byteLen (c :: cs) = c.utf8Size + byteLen cs := by
  simp [byteLen]

/-- The boundary loop of `clip_utf8` lands exactly at the byte length of the
greedy clip when the tail of the string overruns the limit, whatever the
running best boundary is. -/
theorem clipEndLoop_charStarts (m : Nat) :
    ∀ (s : List Char) (off e : Nat), off ≤ m → m < off + byteLen s →
      clipEndLoop m e (charStartsAux off s) = off + byteLen (greedyClip s (m - off)) := by
  intro s
  induction s with
  | nil =>
      intro off e hoff hover
      rw [byteLen_nil] at hover
      omega
  | cons c cs ih =>
      intro off e hoff hover
      rw [charStartsAux, clipEndLoop, if_neg (by omega)]
      by_cases h : off + c.utf8Size ≤ m
      · rw [byteLen_cons] at hover
        rw [ih (off + c.utf8Size) off h (by omega)]
        have hsz : c.utf8Size ≤ m - off := by omega
        rw [greedyClip, if_pos hsz, byteLen_cons]
        have : m - off - c.utf8Size = m - (off + c.utf8Size) := by omega
        rw [this]
        omega
      · have hsz : ¬ c.utf8Size ≤ m - off := by omega
        rw [greedyClip, if_neg hsz, byteLen_nil]
        cases cs with
        | nil => simp [charStartsAux, clipEndLoop]
        | cons c2 cs2 =>
            rw [charStartsAux, clipEndLoop, if_pos (by omega)]
            omega

/-- Slicing at the greedy clip's byte length recovers the greedy clip. -/
theorem takeBytes_byteLen_greedy (s : List Char) :
    ∀ k, takeBytes s (byteLen (greedyClip s k)) = greedyClip s k := by
  induction s with
  | nil => intro k; rfl
  | cons c cs ih =>
      intro k
      by_cases h : c.utf8Size ≤ k
      · have hpos := utf8Size_pos c
        rw [greedyClip, if_pos h, byteLen_cons, takeBytes, if_neg (by omega)]
        have : c.utf8Size + byteLen (greedyClip cs (k - c.utf8Size)) - c.utf8Size =
            byteLen (greedyClip cs (k - c.utf8Size)) := by omega
        rw [this, ih]
      · rw [greedyClip, if_neg h, byteLen_nil, takeBytes, if_pos rfl]

/-- When the whole string fits, the greedy clip is the whole string. -/
theorem greedyClip_of_byteLen_le (s : List Char) :
    ∀ k, byteLen s ≤ k → greedyClip s k = s := by
  induction s with
  | nil => intro k _; rfl
  | cons c cs ih =>
      intro k h
      rw [byteLen_cons] at h
      rw [greedyClip, if_pos (by omega), ih (k - c.utf8Size) (by omega)]

/-- The greedy clip never exceeds the byte budget. -/
theorem byteLen_greedyClip_le (s : List Char) : ∀ k, byteLen (greedyClip s k) ≤ k := by
  induction s with
  | nil => intro k; simp [greedyClip, byteLen_nil]
  | cons c cs ih =>
      intro k
      by_cases h : c.utf8Size ≤ k
      · rw [greedyClip, if_pos h, byteLen_cons]
        have := ih (k - c.utf8Size)
        omega
      · rw [greedyClip, if_neg h, byteLen_nil]
        omega

/-- The greedy clip is a prefix of the input. -/
theorem greedyClip_append (s : List Char) :
    ∀ k, ∃ t, greedyClip s k ++ t = s := by
  induction s with
  | nil => intro k; exact ⟨[], rfl⟩
  | cons c cs ih =>
      intro k
      by_cases h : c.utf8Size ≤ k
      · obtain ⟨t, ht⟩ := ih (k - c.utf8Size)
        exact ⟨t, by rw [greedyClip, if_pos h]; simpa using ht⟩
      · exact ⟨c :: cs, by rw [greedyClip, if_neg h]; rfl⟩

/-- No prefix within the byte budget is longer than the greedy clip. -/
theorem greedyClip_longest (s : List Char) :
    ∀ k n, byteLen (s.take n) ≤ k → (s.take n).length ≤ (greedyClip s k).length := by
  induction s with
  | nil => intro k n _; simp
  | cons c cs ih =>
      intro k n h
      cases n with
      | zero => simp
      | succ n' =>
          rw [List.take_succ_cons, byteLen_cons] at h
          have hsz : c.utf8Size ≤ k := by omega
          rw [greedyClip, if_pos hsz]
          simp only [List.take_succ_cons, List.length_cons, Nat.add_le_add_iff_right]
          exact ih (k - c.utf8Size) n' (by omega)

/-- The function `clip_utf8` computes exactly the greedy longest boundary clip. -/
theorem clipUtf8_eq_greedyClip (s : List Char) (m : Nat) :
    clipUtf8 s m = greedyClip s m := by
  unfold clipUtf8
  split_ifs with h
  · exact (greedyClip_of_byteLen_le s m h).symm
  · rw [clipEndLoop_charStarts m s 0 0 (Nat.zero_le m) (by omega), Nat.zero_add,
      Nat.sub_zero]
    exact takeBytes_byteLen_greedy s m

/-- C7: the status-text clip returns the largest prefix of the string that
ends on a character boundary and whose byte length is at most the limit; in
particular it never splits a multi-byte character and its output byte
length never exceeds the limit. Clipping the string 日本語テスト to 6 bytes
yields 日本. -/
theorem clip_utf8_spec :
    (∀ (s : List Char) (m : Nat),
      byteLen (clipUtf8 s m) ≤ m ∧
      (∃ t, clipUtf8 s m ++ t = s) ∧
      ∀ n, byteLen (s.take n) ≤ m → (s.take n).length ≤ (clipUtf8 s m).length) ∧
    clipUtf8 "日本語テスト".toList 6 = "日本".toList := by
  constructor
  · intro s m
    rw [clipUtf8_eq_greedyClip]
    exact ⟨byteLen_greedyClip_le s m, greedyClip_append s m,
      fun n h => greedyClip_longest s m n h⟩
  · rfl

/-- C7 witness: the general theorem applied to a concrete clip. -/
theorem clip_utf8_spec_witness :
    ("hello world".toList.take 5).length ≤ (clipUtf8 "hello world".toList 5).length :=
  (clip_utf8_spec.1 "hello world".toList 5).2.2 5 (by decide)

/-! ### Association-list facts for the render cache -/

theorem keysOf_insertAssoc_mem (m : List (CacheKey × RenderedImage)) (k : CacheKey)
    (v : RenderedImage) (hk : k ∈ keysOf m) :
    keysOf (insertAssoc m k v) = keysOf m := by
  unfold insertAssoc
  rw [if_pos hk]
  unfold keysOf
  rw [List.map_map]
  apply List.map_congr_left
  intro p _
  by_cases h : p.1 = k <;> simp [h]

theorem keysOf_insertAssoc_not_mem (m : List (CacheKey × RenderedImage)) (k : CacheKey)
    (v : RenderedImage) (hk : k ∉ keysOf m) :
    keysOf (insertAssoc m k v) = keysOf m ++ [k] := by
  unfold insertAssoc
  rw [if_neg hk]
  simp [keysOf]

theorem length_insertAssoc_mem (m : List (CacheKey × RenderedImage)) (k : CacheKey)
    (v : RenderedImage) (hk : k ∈ keysOf m) :
    (insertAssoc m k v).length = m.length := by
  unfold insertAssoc
  rw [if_pos hk]
  simp

theorem length_insertAssoc_not_mem (m : List (CacheKey × RenderedImage)) (k : CacheKey)
    (v : RenderedImage) (hk : k ∉ keysOf m) :
    (insertAssoc m k v).length = m.length + 1 := by
  unfold insertAssoc
  rw [if_neg hk]
  simp

theorem keysOf_eraseAssoc (m : List (CacheKey × RenderedImage)) (k : CacheKey) :
    keysOf (eraseAssoc m k) = (keysOf m).filter (fun x => x ≠ k) := by
  induction m with
  | nil => rfl
  | cons p ps ih =>
      by_cases h : p.1 = k <;>
        simp [eraseAssoc, keysOf, List.filter_cons, h, ih] <;>
        simp [eraseAssoc, keysOf] at ih <;> exact ih

theorem mem_keysOf_eraseAssoc (m : List (CacheKey × RenderedImage)) (k x : CacheKey) :
    x ∈ keysOf (eraseAssoc m k) ↔ x ∈ keysOf m ∧ x ≠ k := by
  rw [keysOf_eraseAssoc]
  simp

theorem nodup_keysOf_eraseAssoc (m : List (CacheKey × RenderedImage)) (k : CacheKey)
    (h : (keysOf m).Nodup) : (keysOf (eraseAssoc m k)).Nodup := by
  rw [keysOf_eraseAssoc]
  exact h.filter _

theorem length_eraseAssoc (m : List (CacheKey × RenderedImage)) (k : CacheKey)
    (hnd : (keysOf m).Nodup) (hk : k ∈ keysOf m) :
    (eraseAssoc m k).length + 1 = m.length := by
  induction m with
  | nil => simp [keysOf] at hk
  | cons p ps ih =>
      simp only [keysOf, List.map_cons, List.nodup_cons] at hnd hk
      by_cases h : p.1 = k
      · have hknotin : k ∉ keysOf ps := by
          rw [← h]; exact hnd.1
        have hid : eraseAssoc ps k = ps := by
          unfold eraseAssoc
          apply List.filter_eq_self.mpr
          intro q hq
          simp only [decide_eq_true_eq]
          intro hqk
          exact hknotin (hqk ▸ List.mem_map_of_mem Prod.fst hq)
        have hdrop : eraseAssoc (p :: ps) k = eraseAssoc ps k := by
          simp [eraseAssoc, List.filter_cons, h]
        rw [hdrop, hid]
        simp
      · rw [List.mem_cons] at hk
        rcases hk with hk | hk
        · exact absurd hk.symm h
        · have hkeep : eraseAssoc (p :: ps) k = p :: eraseAssoc ps k := by
            simp [eraseAssoc, List.filter_cons, h]
          rw [hkeep]
          have := ih hnd.2 hk
          simp only [List.length_cons]
          omega

theorem getLast?_push {α : Type} (l : List α) (a : α) : (l ++ [a]).getLast? = some a :=
  List.getLast?_concat _

theorem nodup_push {α : Type} [DecidableEq α] (l : List α) (a : α)
    (h1 : l.Nodup) (h2 : a ∉ l) : (l ++ [a]).Nodup := by
  simp [List.nodup_append, h1, h2]

/-- C4 helper: the insert operation preserves the cache invariant (for a
positive configured limit, which the configuration clamp guarantees) and
leaves the inserted key at the most-recent end. -/
theorem cacheInv_insert (s : AppState) (key : CacheKey) (orig act : Nat × Nat)
    (ch : List String) (hlim : 1 ≤ s.renderCacheLimit) (hinv : CacheInv s) :
    CacheInv (insertToCache s key orig act ch) ∧
    (insertToCache s key orig act ch).renderCacheOrder.getLast? = some key := by
  obtain ⟨hlen, hndO, hndK, hiff⟩ := hinv
  by_cases hk : key ∈ keysOf s.renderCache
  · have hord : (insertToCache s key orig act ch).renderCacheOrder =
        s.renderCacheOrder.filter (fun x => x ≠ key) ++ [key] := by
      simp [insertToCache, hk]
    have hcache : (insertToCache s key orig act ch).renderCache =
        insertAssoc s.renderCache key ⟨orig, act, ch⟩ := by
      simp [insertToCache, hk]
    have hlimit : (insertToCache s key orig act ch).renderCacheLimit =
        s.renderCacheLimit := by
      simp [insertToCache, hk]
    refine ⟨⟨?_, ?_, ?_, ?_⟩, ?_⟩
    · rw [hcache, hlimit, length_insertAssoc_mem _ _ _ hk]
      exact hlen
    · rw [hord]
      refine nodup_push _ _ (hndO.filter _) ?_
      simp
    · rw [hcache, keysOf_insertAssoc_mem _ _ _ hk]
      exact hndK
    · intro x
      rw [hord, hcache, keysOf_insertAssoc_mem _ _ _ hk]
      simp only [List.mem_append, List.mem_filter, List.mem_singleton,
        decide_eq_true_eq]
      constructor
      · rintro (⟨hx, _⟩ | hx)
        · exact (hiff x).mp hx
        · exact hx ▸ hk
      · intro hx
        by_cases hxk : x = key
        · exact Or.inr hxk
        · exact Or.inl ⟨(hiff x).mpr hx, hxk⟩
    · rw [hord]
      exact getLast?_push _ _
  · by_cases hfull : s.renderCacheLimit ≤ s.renderCache.length
    · rcases hordEq : s.renderCacheOrder with _ | ⟨oldest, rest⟩
      · exfalso
        have hknil : keysOf s.renderCache = [] := by
          rw [List.eq_nil_iff_forall_not_mem]
          intro x hx
          have hxord := (hiff x).mpr hx
          rw [hordEq] at hxord
          exact absurd hxord (List.not_mem_nil x)
        have : s.renderCache = [] := List.map_eq_nil_iff.mp hknil
        rw [this] at hfull
        simp at hfull
        omega
      · have holdmem : oldest ∈ keysOf s.renderCache := by
          refine (hiff oldest).mp ?_
          rw [hordEq]
          exact List.mem_cons_self _ _
        have hkerase : key ∉ keysOf (eraseAssoc s.renderCache oldest) := by
          rw [mem_keysOf_eraseAssoc]
          intro hc
          exact hk hc.1
        have hord : (insertToCache s key orig act ch).renderCacheOrder =
            rest ++ [key] := by
          simp [insertToCache, hk, hfull, hordEq]
        have hcache : (insertToCache s key orig act ch).renderCache =
            insertAssoc (eraseAssoc s.renderCache oldest) key ⟨orig, act, ch⟩ := by
          simp [insertToCache, hk, hfull, hordEq]
        have hlimit : (insertToCache s key orig act ch).renderCacheLimit =
            s.renderCacheLimit := by
          simp [insertToCache, hk, hfull, hordEq]
        have hordfacts : rest.Nodup ∧ oldest ∉ rest := by
          have := hndO
          rw [hordEq, List.nodup_cons] at this
          exact ⟨this.2, this.1⟩
        have hkeynotrest : key ∉ rest := by
          intro hc
          refine hk ((hiff key).mp ?_)
          rw [hordEq]
          exact List.mem_cons_of_mem _ hc
        refine ⟨⟨?_, ?_, ?_, ?_⟩, ?_⟩
        · rw [hcache, hlimit,
            length_insertAssoc_not_mem _ _ _ hkerase,
            length_eraseAssoc _ _ hndK holdmem]
          exact hlen
        · rw [hord]
          exact nodup_push _ _ hordfacts.1 hkeynotrest
        · rw [hcache, keysOf_insertAssoc_not_mem _ _ _ hkerase]
          exact nodup_push _ _ (nodup_keysOf_eraseAssoc _ _ hndK) hkerase
        · intro x
          rw [hord, hcache, keysOf_insertAssoc_not_mem _ _ _ hkerase]
          simp only [List.mem_append, List.mem_singleton]
          rw [mem_keysOf_eraseAssoc]
          constructor
          · rintro (hx | hx)
            · refine Or.inl ⟨(hiff x).mp ?_, ?_⟩
              · rw [hordEq]
                exact List.mem_cons_of_mem _ hx
              · intro hc
                exact hordfacts.2 (hc ▸ hx)
            · exact Or.inr hx
          · rintro (⟨hx, hxo⟩ | hx)
            · have := (hiff x).mpr hx
              rw [hordEq, List.mem_cons] at this
              rcases this with h1 | h1
              · exact absurd h1 hxo
              · exact Or.inl h1
            · exact Or.inr hx
        · rw [hord]
          exact getLast?_push _ _
    · have hord : (insertToCache s key orig act ch).renderCacheOrder =
          s.renderCacheOrder ++ [key] := by
        simp [insertToCache, hk, hfull]
      have hcache : (insertToCache s key orig act ch).renderCache =
          insertAssoc s.renderCache key ⟨orig, act, ch⟩ := by
        simp [insertToCache, hk, hfull]
      have hlimit : (insertToCache s key orig act ch).renderCacheLimit =
          s.renderCacheLimit := by
        simp [insertToCache, hk, hfull]
      have hkord : key ∉ s.renderCacheOrder := by
        intro hc
        exact hk ((hiff key).mp hc)
      refine ⟨⟨?_, ?_, ?_, ?_⟩, ?_⟩
      · rw [hcache, hlimit, length_insertAssoc_not_mem _ _ _ hk]
        omega
      · rw [hord]
        exact nodup_push _ _ hndO hkord
      · rw [hcache, keysOf_insertAssoc_not_mem _ _ _ hk]
        exact nodup_push _ _ hndK hk
      · intro x
        rw [hord, hcache, keysOf_insertAssoc_not_mem _ _ _ hk]
        simp only [List.mem_append, List.mem_singleton]
        constructor
        · rintro (hx | hx)
          · exact Or.inl ((hiff x).mp hx)
          · exact Or.inr hx
        · rintro (hx | hx)
          · exact Or.inl ((hiff x).mpr hx)
          · exact Or.inr hx
      · rw [hord]
        exact getLast?_push _ _

/-- C4 helper: touching a cached key preserves the invariant and moves the
key to the most-recent end. -/
theorem cacheInv_touch (s : AppState) (key : CacheKey) (hinv : CacheInv s) :
    CacheInv (touchRenderCache s key) ∧
    (key ∈ keysOf s.renderCache →
      (touchRenderCache s key).renderCacheOrder.getLast? = some key) := by
  obtain ⟨hlen, hndO, hndK, hiff⟩ := hinv
  by_cases hlast : s.renderCacheOrder.getLast? = some key
  · have hid : touchRenderCache s key = s := by
      simp [touchRenderCache, hlast]
    rw [hid]
    exact ⟨⟨hlen, hndO, hndK, hiff⟩, fun _ => hlast⟩
  · by_cases hk : key ∈ keysOf s.renderCache
    · have hord : (touchRenderCache s key).renderCacheOrder =
          s.renderCacheOrder.filter (fun x => x ≠ key) ++ [key] := by
        simp [touchRenderCache, hlast, hk]
      have hrest : (touchRenderCache s key).renderCache = s.renderCache ∧
          (touchRenderCache s key).renderCacheLimit = s.renderCacheLimit := by
        constructor <;> simp [touchRenderCache, hlast, hk]
      refine ⟨⟨?_, ?_, ?_, ?_⟩, fun _ => ?_⟩
      · rw [hrest.1, hrest.2]
        exact hlen
      · rw [hord]
        refine nodup_push _ _ (hndO.filter _) ?_
        simp
      · rw [hrest.1]
        exact hndK
      · intro x
        rw [hord, hrest.1]
        simp only [List.mem_append, List.mem_filter, List.mem_singleton,
          decide_eq_true_eq]
        constructor
        · rintro (⟨hx, _⟩ | hx)
          · exact (hiff x).mp hx
          · exact hx ▸ hk
        · intro hx
          by_cases hxk : x = key
          · exact Or.inr hxk
          · exact Or.inl ⟨(hiff x).mpr hx, hxk⟩
      · rw [hord]
        exact getLast?_push _ _
    · have hid : touchRenderCache s key = s := by
        simp [touchRenderCache, hlast, hk]
      rw [hid]
      exact ⟨⟨hlen, hndO, hndK, hiff⟩, fun hc => absurd hc hk⟩

/-- C4 helper: the cache clears of `reload` and `handle_resize` produce
states satisfying the invariant. -/
theorem cacheInv_clears (s : AppState) :
    CacheInv (reload s).1 ∧ CacheInv (handleResize s).1 := by
  constructor <;>
    exact ⟨by simp [reload, handleResize, cancelImageOutput],
      by simp [reload, handleResize, cancelImageOutput],
      by simp [reload, handleResize, cancelImageOutput, keysOf],
      by intro k; simp [reload, handleResize, cancelImageOutput, keysOf]⟩

/-- C4: the render cache invariant — entries at most the configured limit,
every cached key exactly once in the recency list and conversely, the
inserted or touched key at the most-recent end — holds for an empty cache
and is preserved by `insert_to_cache`, `touch_render_cache` and the clears
in `reload`/`handle_resize` (insertion needs the limit to be positive, as
the configuration clamp ensures). -/
theorem render_cache_invariant (s : AppState) (key : CacheKey)
    (orig act : Nat × Nat) (ch : List String) :
    (s.renderCache = [] → s.renderCacheOrder = [] → CacheInv s) ∧
    (1 ≤ s.renderCacheLimit → CacheInv s →
      CacheInv (insertToCache s key orig act ch) ∧
      (insertToCache s key orig act ch).renderCacheOrder.getLast? = some key) ∧
    (CacheInv s →
      CacheInv (touchRenderCache s key) ∧
      (key ∈ keysOf s.renderCache →
        (touchRenderCache s key).renderCacheOrder.getLast? = some key)) ∧
    (CacheInv (reload s).1 ∧ CacheInv (handleResize s).1) := by
  refine ⟨?_, ?_, ?_, cacheInv_clears s⟩
  · intro h1 h2
    refine ⟨?_, ?_, ?_, ?_⟩ <;> simp [h1, h2, keysOf]
  · intro hlim hinv
    exact cacheInv_insert s key orig act ch hlim hinv
  · intro hinv
    exact cacheInv_touch s key hinv

/-- C4 witness: inserting into the empty sample cache preserves the
invariant and leaves the new key most recent. -/
theorem render_cache_invariant_witness :
    CacheInv (insertToCache sampleApp ("x.png", (1, 1), FitMode.Normal) (1, 1) (1, 1) []) ∧
    (insertToCache sampleApp ("x.png", (1, 1), FitMode.Normal) (1, 1)
        (1, 1) []).renderCacheOrder.getLast? = some ("x.png", (1, 1), FitMode.Normal) :=
  (render_cache_invariant sampleApp ("x.png", (1, 1), FitMode.Normal) (1, 1) (1, 1) []).2.1
    (by decide)
    ((render_cache_invariant sampleApp ("x.png", (1, 1), FitMode.Normal) (1, 1)
      (1, 1) []).1 rfl rfl)

/-! ### Rectangle difference: C6 support -/

theorem rectIntersection_none_facts (a b : Rect) (h : rectIntersection a b = none) :
    min (a.x + a.width) (b.x + b.width) ≤ max a.x b.x ∨
    min (a.y + a.height) (b.y + b.height) ≤ max a.y b.y := by
  simp only [rectIntersection] at h
  split_ifs at h with hc
  exact hc

theorem rectIntersection_some_facts (a b i : Rect)
    (ha : U16Rect a) (hb : U16Rect b) (h : rectIntersection a b = some i) :
    i.x = max a.x b.x ∧ i.y = max a.y b.y ∧
    i.x + i.width = min (a.x + a.width) (b.x + b.width) ∧
    i.y + i.height = min (a.y + a.height) (b.y + b.height) ∧
    max a.x b.x < min (a.x + a.width) (b.x + b.width) ∧
    max a.y b.y < min (a.y + a.height) (b.y + b.height) := by
  obtain ⟨ha1, ha2, ha3, ha4⟩ := ha
  obtain ⟨hb1, hb2, hb3, hb4⟩ := hb
  simp only [rectIntersection] at h
  split_ifs at h with hc
  rw [Option.some_inj] at h
  subst h
  push_neg at hc
  simp only [u16]
  refine ⟨?_, ?_, ?_, ?_, ?_, ?_⟩ <;> omega

theorem pairwise_ite_quad {α : Type} (R : α → α → Prop) (a b c d : α)
    (c1 c2 c3 c4 : Prop) [Decidable c1] [Decidable c2] [Decidable c3] [Decidable c4]
    (hab : R a b) (hac : R a c) (had : R a d) (hbc : R b c) (hbd : R b d)
    (hcd : R c d) :
    List.Pairwise R ((if c1 then [a] else []) ++ (if c2 then [b] else []) ++
      (if c3 then [c] else []) ++ (if c4 then [d] else [])) := by
  split_ifs <;> simp_all [List.pairwise_append, List.pairwise_cons]

theorem exists_mem_ite_quad {α : Type} (P : α → Prop) (a b c d : α)
    (c1 c2 c3 c4 : Prop) [Decidable c1] [Decidable c2] [Decidable c3] [Decidable c4] :
    (∃ r ∈ ((if c1 then [a] else []) ++ (if c2 then [b] else []) ++
      (if c3 then [c] else []) ++ (if c4 then [d] else [])), P r) ↔
    ((c1 ∧ P a) ∨ (c2 ∧ P b) ∨ (c3 ∧ P c) ∨ (c4 ∧ P d)) := by
  split_ifs <;> simp_all

theorem length_ite_quad {α : Type} (a b c d : α) (c1 c2 c3 c4 : Prop)
    [Decidable c1] [Decidable c2] [Decidable c3] [Decidable c4] :
    ((if c1 then [a] else []) ++ (if c2 then [b] else []) ++
      (if c3 then [c] else []) ++ (if c4 then [d] else [])).length ≤ 4 := by
  split_ifs <;> simp

theorem map_sum_ite_quad (f : Rect → Nat) (a b c d : Rect) (c1 c2 c3 c4 : Prop)
    [Decidable c1] [Decidable c2] [Decidable c3] [Decidable c4] :
    ((((if c1 then [a] else []) ++ (if c2 then [b] else []) ++
        (if c3 then [c] else []) ++ (if c4 then [d] else [])).map f).sum) =
      (if c1 then f a else 0) + (if c2 then f b else 0) +
        (if c3 then f c else 0) + (if c4 then f d else 0) := by
  split_ifs <;> simp <;> omega

/-- C6: for every pair of u16 rectangles, the strips returned by the
rectangle set-difference are pairwise disjoint, there are at most four of
them, and the sum of their areas is the area of `old` minus the area of
the intersection of `old` and `new`; when the coordinates of `old` do not
overflow 16 bits, the strips cover exactly `old \ new` cell by cell. -/
theorem rect_diff_spec (old new : Rect) (ho : U16Rect old) (hn : U16Rect new) :
    List.Pairwise (fun r s => ∀ px py, ¬(memRect r px py ∧ memRect s px py))
      (rectDiff old new) ∧
    (rectDiff old new).length ≤ 4 ∧
    ((rectDiff old new).map rectArea).sum + interAreaOf old new = rectArea old ∧
    ((rectDiff old new).map rectArea).sum = rectArea old - interAreaOf old new ∧
    (old.x + old.width ≤ 65536 → old.y + old.height ≤ 65536 →
      ∀ px py,
        (∃ r ∈ rectDiff old new, memRect r px py) ↔
          (memRect old px py ∧ ¬ memRect new px py)) := by
  obtain ⟨ho1, ho2, ho3, ho4⟩ := ho
  obtain ⟨hn1, hn2, hn3, hn4⟩ := hn
  rcases hI : rectIntersection old new with _ | i
  · have hc := rectIntersection_none_facts old new hI
    have hdiff : rectDiff old new = [old] := by
      unfold rectDiff
      rw [hI]
    have hinter : interAreaOf old new = 0 := by
      unfold interAreaOf
      rw [hI]
    rw [hdiff, hinter]
    refine ⟨?_, ?_, ?_, ?_, ?_⟩
    · simp
    · simp
    · simp
    · simp [rectArea]
    · intro _ _ px py
      have hmem : (∃ r ∈ [old], memRect r px py) ↔ memRect old px py := by
        simp
      rw [hmem]
      simp only [memRect]
      omega
  · have hf := rectIntersection_some_facts old new i ⟨ho1, ho2, ho3, ho4⟩
      ⟨hn1, hn2, hn3, hn4⟩ hI
    obtain ⟨hix, hiy, hixw, hiyh, hxlt, hylt⟩ := hf
    have hdiff : rectDiff old new =
        (if old.y < i.y then
            [Rect.mk old.x old.y old.width (u16 (i.y - old.y))]
          else []) ++
        (if i.y + i.height < old.y + old.height then
            [Rect.mk old.x (u16 (i.y + i.height)) old.width
              (u16 (old.y + old.height - (i.y + i.height)))]
          else []) ++
        (if old.x < i.x then
            [Rect.mk old.x i.y (u16 (i.x - old.x)) i.height]
          else []) ++
        (if i.x + i.width < old.x + old.width then
            [Rect.mk (u16 (i.x + i.width)) i.y
              (u16 (old.x + old.width - (i.x + i.width))) i.height]
          else []) := by
      unfold rectDiff
      rw [hI]
    have hinter : interAreaOf old new = rectArea i := by
      unfold interAreaOf
      rw [hI]
    have hplus : ((rectDiff old new).map rectArea).sum + interAreaOf old new =
        rectArea old := by
      rw [hdiff, hinter, map_sum_ite_quad]
      have m1 : u16 (i.y - old.y) = i.y - old.y := by
        simp only [u16]
        omega
      have m2 : u16 (old.y + old.height - (i.y + i.height)) =
          old.y + old.height - (i.y + i.height) := by
        simp only [u16]
        omega
      have m3 : u16 (i.x - old.x) = i.x - old.x := by
        simp only [u16]
        omega
      have m4 : u16 (old.x + old.width - (i.x + i.width)) =
          old.x + old.width - (i.x + i.width) := by
        simp only [u16]
        omega
      have e1 : (if old.y < i.y then
          rectArea (Rect.mk old.x old.y old.width (u16 (i.y - old.y))) else 0) =
          old.width * (i.y - old.y) := by
        split_ifs with h
        · simp [rectArea, m1]
        · have hz : i.y - old.y = 0 := by omega
          simp [hz]
      have e2 : (if i.y + i.height < old.y + old.height then
          rectArea (Rect.mk old.x (u16 (i.y + i.height)) old.width
            (u16 (old.y + old.height - (i.y + i.height)))) else 0) =
          old.width * (old.y + old.height - (i.y + i.height)) := by
        split_ifs with h
        · simp [rectArea, m2]
        · have hz : old.y + old.height - (i.y + i.height) = 0 := by omega
          simp [hz]
      have e3 : (if old.x < i.x then
          rectArea (Rect.mk old.x i.y (u16 (i.x - old.x)) i.height) else 0) =
          (i.x - old.x) * i.height := by
        split_ifs with h
        · simp [rectArea, m3]
        · have hz : i.x - old.x = 0 := by omega
          simp [hz]
      have e4 : (if i.x + i.width < old.x + old.width then
          rectArea (Rect.mk (u16 (i.x + i.width)) i.y
            (u16 (old.x + old.width - (i.x + i.width))) i.height) else 0) =
          (old.x + old.width - (i.x + i.width)) * i.height := by
        split_ifs with h
        · simp [rectArea, m4]
        · have hz : old.x + old.width - (i.x + i.width) = 0 := by omega
          simp [hz]
      rw [e1, e2, e3, e4]
      obtain ⟨t, ht⟩ := Nat.exists_eq_add_of_le (show old.y ≤ i.y by omega)
      obtain ⟨bb, hbb⟩ := Nat.exists_eq_add_of_le
        (show i.y + i.height ≤ old.y + old.height by omega)
      obtain ⟨ll, hll⟩ := Nat.exists_eq_add_of_le (show old.x ≤ i.x by omega)
      obtain ⟨rr, hrr⟩ := Nat.exists_eq_add_of_le
        (show i.x + i.width ≤ old.x + old.width by omega)
      have st : i.y - old.y = t := by omega
      have sb : old.y + old.height - (i.y + i.height) = bb := by omega
      have sl : i.x - old.x = ll := by omega
      have sr : old.x + old.width - (i.x + i.width) = rr := by omega
      rw [st, sb, sl, sr]
      simp only [rectArea]
      have hH : old.height = t + i.height + bb := by omega
      have hW : old.width = ll + i.width + rr := by omega
      rw [hH, hW]
      ring
    have dTB : ∀ px py,
        ¬(memRect (Rect.mk old.x old.y old.width (u16 (i.y - old.y))) px py ∧
          memRect (Rect.mk old.x (u16 (i.y + i.height)) old.width
            (u16 (old.y + old.height - (i.y + i.height)))) px py) := by
      intro px py hcc
      simp only [memRect, u16] at hcc
      omega
    have dTL : ∀ px py,
        ¬(memRect (Rect.mk old.x old.y old.width (u16 (i.y - old.y))) px py ∧
          memRect (Rect.mk old.x i.y (u16 (i.x - old.x)) i.height) px py) := by
      intro px py hcc
      simp only [memRect, u16] at hcc
      omega
    have dTR : ∀ px py,
        ¬(memRect (Rect.mk old.x old.y old.width (u16 (i.y - old.y))) px py ∧
          memRect (Rect.mk (u16 (i.x + i.width)) i.y
            (u16 (old.x + old.width - (i.x + i.width))) i.height) px py) := by
      intro px py hcc
      simp only [memRect, u16] at hcc
      omega
    have dBL : ∀ px py,
        ¬(memRect (Rect.mk old.x (u16 (i.y + i.height)) old.width
            (u16 (old.y + old.height - (i.y + i.height)))) px py ∧
          memRect (Rect.mk old.x i.y (u16 (i.x - old.x)) i.height) px py) := by
      intro px py hcc
      simp only [memRect, u16] at hcc
      omega
    have dBR : ∀ px py,
        ¬(memRect (Rect.mk old.x (u16 (i.y + i.height)) old.width
            (u16 (old.y + old.height - (i.y + i.height)))) px py ∧
          memRect (Rect.mk (u16 (i.x + i.width)) i.y
            (u16 (old.x + old.width - (i.x + i.width))) i.height) px py) := by
      intro px py hcc
      simp only [memRect, u16] at hcc
      omega
    have dLR : ∀ px py,
        ¬(memRect (Rect.mk old.x i.y (u16 (i.x - old.x)) i.height) px py ∧
          memRect (Rect.mk (u16 (i.x + i.width)) i.y
            (u16 (old.x + old.width - (i.x + i.width))) i.height) px py) := by
      intro px py hcc
      simp only [memRect, u16] at hcc
      omega
    refine ⟨?_, ?_, hplus, Nat.eq_sub_of_add_eq hplus, ?_⟩
    · rw [hdiff]
      exact pairwise_ite_quad _ _ _ _ _ _ _ _ _ dTB dTL dTR dBL dBR dLR
    · rw [hdiff]
      exact length_ite_quad _ _ _ _ _ _ _ _
    · intro h16w h16h px py
      have f1 : old.x ≤ i.x := by omega
      have f2 : new.x ≤ i.x := by omega
      have f3 : i.x = old.x ∨ i.x = new.x := by omega
      have f4 : i.x + i.width ≤ old.x + old.width := by omega
      have f5 : i.x + i.width ≤ new.x + new.width := by omega
      have f6 : i.x + i.width = old.x + old.width ∨
          i.x + i.width = new.x + new.width := by omega
      have f7 : old.y ≤ i.y := by omega
      have f8 : new.y ≤ i.y := by omega
      have f9 : i.y = old.y ∨ i.y = new.y := by omega
      have f10 : i.y + i.height ≤ old.y + old.height := by omega
      have f11 : i.y + i.height ≤ new.y + new.height := by omega
      have f12 : i.y + i.height = old.y + old.height ∨
          i.y + i.height = new.y + new.height := by omega
      have f13 : 0 < i.width := by omega
      have f14 : 0 < i.height := by omega
      clear hix hiy hixw hiyh hxlt hylt hplus dTB dTL dTR dBL dBR dLR hinter
      rw [hdiff, exists_mem_ite_quad]
      simp only [memRect, u16]
      omega

/-- C6 witness: the concrete strips of `(0,0,10,10) \ (5,5,10,10)` total 75
cells and cover exactly the difference at a sample cell. -/
theorem rect_diff_spec_witness :
    ((rectDiff ⟨0, 0, 10, 10⟩ ⟨5, 5, 10, 10⟩).map rectArea).sum =
      rectArea ⟨0, 0, 10, 10⟩ - interAreaOf ⟨0, 0, 10, 10⟩ ⟨5, 5, 10, 10⟩ ∧
    ((∃ r ∈ rectDiff ⟨0, 0, 10, 10⟩ ⟨5, 5, 10, 10⟩, memRect r 2 7) ↔
      (memRect ⟨0, 0, 10, 10⟩ 2 7 ∧ ¬ memRect ⟨5, 5, 10, 10⟩ 2 7)) :=
  ⟨(rect_diff_spec ⟨0, 0, 10, 10⟩ ⟨5, 5, 10, 10⟩ (by decide) (by decide)).2.2.2.1,
   (rect_diff_spec ⟨0, 0, 10, 10⟩ ⟨5, 5, 10, 10⟩ (by decide) (by decide)).2.2.2.2
     (by decide) (by decide) 2 7⟩

end Svt
